import Mathlib

/-!
Shallow embedding of the qsim gate-level quantum circuit simulator core:
complex amplitudes, gates built from row-major matrix data, the sparse state
with gate application, single-qubit measurement and renormalization, the
circuit with validated operation insertion and sequential execution, and the
observable layer (probability vector and per-qubit Bloch parameters) derived
from a final state.  JavaScript floating-point numbers are modelled by exact
reals; the Map from basis index to amplitude is modelled by a total function
that is zero on absent keys; Math.random() draws are passed in explicitly as
an infinite stream of reals.
-/

namespace QSim

/-- Error kinds of the simulator; the source throws generic JS Errors, whose
messages the specification classifies into these kinds. -/
inductive SimError where
  | InvalidArgument
  | OutOfRange
  | DegenerateState
deriving DecidableEq

/-- A gate mirrors the source Gate class: it is constructed from row-major
matrix data of complex entries, and `size` is the number of rows. -/
structure Gate where
  matrixData : List (List ℂ)

/-- Number of rows of the gate matrix, as stored by the Gate constructor. -/
def Gate.size (g : Gate) : ℕ := g.matrixData.length

/-- Element read matrix.get at row i, column j; out-of-range reads are 0
(they never occur along validated paths). -/
def Gate.entry (g : Gate) (i j : ℕ) : ℂ := (g.matrixData.getD i []).getD j 0

/-- Hadamard factor 1/sqrt 2 as a complex scalar. -/
noncomputable def hFactor : ℂ := ((1 / Real.sqrt 2 : ℝ) : ℂ)

/-- Gate.Hadamard from the source. -/
noncomputable def Gate.Hadamard : Gate := ⟨[[hFactor, hFactor], [hFactor, -hFactor]]⟩

/-- Gate.PauliX from the source. -/
def Gate.PauliX : Gate := ⟨[[0, 1], [1, 0]]⟩

/-- Gate.PauliZ from the source. -/
def Gate.PauliZ : Gate := ⟨[[1, 0], [0, -1]]⟩

/-- Gate.CNOT from the source: rows 0 and 1 of the identity, then rows 2 and 3
swapped. -/
def Gate.CNOT : Gate :=
  ⟨[[1, 0, 0, 0], [0, 1, 0, 0], [0, 0, 0, 1], [0, 0, 1, 0]]⟩

/-- Gate.Oracle from the source: for each row i, a row of zeros with the value
(-1 if i = targetState else 1) placed at column i.  The source performs no
validation of its arguments. -/
def Gate.Oracle (numQubits targetState : ℕ) : Gate :=
  ⟨(List.range (2 ^ numQubits)).map fun i =>
    (List.range (2 ^ numQubits)).map fun j =>
      if j = i then (if i = targetState then (-1 : ℂ) else 1) else 0⟩

/-- Gate.Diffusion from the source: factor = 2/size, diagonal entries
factor - 1, off-diagonal entries factor.  No argument validation. -/
noncomputable def Gate.Diffusion (numQubits : ℕ) : Gate :=
  ⟨(List.range (2 ^ numQubits)).map fun i =>
    (List.range (2 ^ numQubits)).map fun j =>
      if i = j then (2 / (2 ^ numQubits : ℂ) - 1) else 2 / (2 ^ numQubits : ℂ)⟩

/-- Sparse quantum state: the source Map from basis index to amplitude is a
total function that is zero on keys absent from the Map. -/
structure SparseQuantumState where
  numQubits : ℕ
  amplitudes : ℕ → ℂ
  normalizeEachStep : Bool

/-- SparseQuantumState constructor: rejects an initial basis state above
maxIndex = 2^n - 1 with an out-of-range error, otherwise places amplitude 1
at the initial index.  Run never passes normalizeEachStep, so the
configuration default true is used. -/
def SparseQuantumState.make (numQubits initialBasisState : ℕ) :
    Except SimError SparseQuantumState :=
  if initialBasisState > 2 ^ numQubits - 1 then .error .OutOfRange
  else .ok ⟨numQubits, fun i => if i = initialBasisState then 1 else 0, true⟩

/-- applyGateToBasisState from the source: overwrite, for each position i of
the target list, the bit of stateIndex at qubit targetQubits.get i with bit i
of targetStateIndex. -/
def applyGateToBasisState (stateIndex : ℕ) (targetQubits : List ℕ)
    (targetStateIndex : ℕ) : ℕ :=
  (List.range targetQubits.length).foldl
    (fun acc i =>
      if (targetStateIndex >>> i) &&& 1 = 0 then
        Nat.ldiff acc (1 <<< targetQubits.getD i 0)
      else acc ||| (1 <<< targetQubits.getD i 0))
    stateIndex

/-- The local basis index computed inside applyGate: bit k of the result is
the bit of stateIndex at qubit targetQubits.get k. -/
def localBasisIndex (stateIndex : ℕ) (targetQubits : List ℕ) : ℕ :=
  (List.range targetQubits.length).foldl
    (fun acc k => acc ||| (((stateIndex >>> targetQubits.getD k 0) &&& 1) <<< k)) 0

/-- One pass of applyGate before the optional renormalization: every stored
entry (s, amp) contributes amp * matrix.get i (localBasisIndex s) to the new
key applyGateToBasisState s targetQubits i, and colliding keys accumulate by
complex addition.  Iteration over the Map is modelled by summation over the
full index range; absent keys are zero and contribute nothing, and the
source's skip of structurally zero matrix elements adds zero. -/
noncomputable def applyGateRaw (st : SparseQuantumState) (g : Gate)
    (targetQubits : List ℕ) : ℕ → ℂ := fun j =>
  ∑ s ∈ Finset.range (2 ^ st.numQubits),
    ∑ i ∈ Finset.range (2 ^ targetQubits.length),
      if applyGateToBasisState s targetQubits i = j then
        st.amplitudes s * g.entry i (localBasisIndex s targetQubits)
      else 0

/-- Total squared magnitude of the stored amplitudes, as accumulated by the
source normalize loop (abs squared, summed over stored entries). -/
noncomputable def stateNormSq (n : ℕ) (a : ℕ → ℂ) : ℝ :=
  ∑ i ∈ Finset.range (2 ^ n), Complex.abs (a i) ^ 2

/-- normalize from the source: compute norm = sqrt of the total squared
magnitude; error (degenerate state) when it is zero, otherwise divide the
real and imaginary part of every amplitude by norm. -/
noncomputable def normalizeAmps (n : ℕ) (a : ℕ → ℂ) : Except SimError (ℕ → ℂ) :=
  if Real.sqrt (stateNormSq n a) = 0 then .error .DegenerateState
  else .ok fun i =>
    ⟨(a i).re / Real.sqrt (stateNormSq n a), (a i).im / Real.sqrt (stateNormSq n a)⟩

/-- applyGate from the source: rebuild the amplitude Map via applyGateRaw and
renormalize when normalizeEachStep is set. -/
noncomputable def SparseQuantumState.applyGate (st : SparseQuantumState) (g : Gate)
    (targetQubits : List ℕ) : Except SimError SparseQuantumState :=
  let newAmps := applyGateRaw st g targetQubits
  if st.normalizeEachStep then
    match normalizeAmps st.numQubits newAmps with
    | .error e => .error e
    | .ok a => .ok ⟨st.numQubits, a, st.normalizeEachStep⟩
  else .ok ⟨st.numQubits, newAmps, st.normalizeEachStep⟩

/-- prob0 computed by measure: the sum of abs squared over stored entries
whose bit at the measured qubit is 0.  The JS bit test
(stateIndex >> qubit) & 1 is modelled with the untruncated Nat shift, exact
for shift counts below 32; the engine reduces the shift count mod 32, which
measureJs below accounts for on larger qubit arguments. -/
noncomputable def measureProb0 (st : SparseQuantumState) (q : ℕ) : ℝ :=
  ∑ i ∈ Finset.range (2 ^ st.numQubits),
    if (i >>> q) &&& 1 = 0 then Complex.abs (st.amplitudes i) ^ 2 else 0

/-- The outcome local of measure: 0 when the uniform draw u is below prob0,
else 1. -/
noncomputable def measureOutcome (st : SparseQuantumState) (q : ℕ) (u : ℝ) : ℕ :=
  if u < measureProb0 st q then 0 else 1

/-- The amplitude Map of measure after its deletion loop: every entry whose
bit at the measured qubit differs from the outcome is deleted.  As in
measureProb0, the untruncated Nat shift is exact for shift counts below 32;
measureJs below carries the mod-32 reduction the engine applies. -/
noncomputable def measureProjected (st : SparseQuantumState) (q : ℕ) (u : ℝ) :
    ℕ → ℂ := fun i =>
  if (i >>> q) &&& 1 ≠ measureOutcome st q u then 0 else st.amplitudes i

/-- measure from the source, with the Math.random() draw u passed explicitly:
outcome is 0 when u < prob0 and 1 otherwise; every entry whose bit at the
measured qubit differs from the outcome is deleted; then normalize runs.  The
source performs no range validation on the qubit argument. -/
noncomputable def SparseQuantumState.measure (st : SparseQuantumState) (q : ℕ)
    (u : ℝ) : Except SimError (ℕ × SparseQuantumState) :=
  match normalizeAmps st.numQubits (measureProjected st q u) with
  | .error e => .error e
  | .ok a => .ok (measureOutcome st q u, ⟨st.numQubits, a, st.normalizeEachStep⟩)

/-- measure as the JavaScript engine executes it for an arbitrary qubit
argument: the shift count of the bit test (stateIndex >> qubit) & 1 is
reduced mod 32 by the engine, and the qubit enters measure only as that
shift count (in the prob0 loop and in the deletion loop), so measure(q)
behaves exactly as measure(q % 32).  For q < 32 this coincides with measure
above. -/
noncomputable def SparseQuantumState.measureJs (st : SparseQuantumState)
    (q : ℕ) (u : ℝ) : Except SimError (ℕ × SparseQuantumState) :=
  st.measure (q % 32) u

/-- Classical condition attached to a conditional gate operation. -/
structure Condition where
  qubit : ℕ
  value : ℕ
deriving DecidableEq

/-- One circuit operation: gate, target qubits, optional condition. -/
structure GateOperation where
  gate : Gate
  qubits : List ℕ
  condition : Option Condition

/-- Circuit from the source: qubit count, initial basis state and the ordered
operation list. -/
structure Circuit where
  numQubits : ℕ
  initialBasisState : ℕ
  operations : List GateOperation

/-- Circuit constructor from the source: it stores its two arguments and
performs no validation of either. -/
def Circuit.make (numQubits initialBasisState : ℕ) : Circuit :=
  ⟨numQubits, initialBasisState, []⟩

/-- gateArity from the source: k = log2 size must be a finite integer,
otherwise the gate size is invalid. -/
def gateArity (g : Gate) : Except SimError ℕ :=
  if 2 ^ Nat.log2 g.size = g.size then .ok (Nat.log2 g.size)
  else .error .InvalidArgument

/-- validateArity from the source: arity must equal the number of target
qubits, and a multi-qubit gate requires pairwise distinct targets. -/
def validateArity (g : Gate) (qubits : List ℕ) : Except SimError Unit :=
  match gateArity g with
  | .error e => .error e
  | .ok arity =>
    if qubits.length ≠ arity then .error .InvalidArgument
    else if 1 < arity ∧ ¬qubits.Nodup then .error .InvalidArgument
    else .ok ()

/-- addGate from the source: reject any out-of-range target index, then
validate arity and distinctness, then append the operation. -/
def Circuit.addGate (c : Circuit) (g : Gate) (qubits : List ℕ) :
    Except SimError Circuit :=
  if qubits.any fun q => c.numQubits ≤ q then .error .InvalidArgument
  else
    match validateArity g qubits with
    | .error e => .error e
    | .ok _ =>
      .ok ⟨c.numQubits, c.initialBasisState, c.operations ++ [⟨g, qubits, none⟩]⟩

/-- addConditionalGate from the source: the checks of addGate, plus the
condition qubit must be in range and distinct from every target qubit.  The
condition value is not validated. -/
def Circuit.addConditionalGate (c : Circuit) (g : Gate) (qubits : List ℕ)
    (cond : Condition) : Except SimError Circuit :=
  if qubits.any fun q => c.numQubits ≤ q then .error .InvalidArgument
  else if c.numQubits ≤ cond.qubit then .error .InvalidArgument
  else if cond.qubit ∈ qubits then .error .InvalidArgument
  else
    match validateArity g qubits with
    | .error e => .error e
    | .ok _ =>
      .ok ⟨c.numQubits, c.initialBasisState, c.operations ++ [⟨g, qubits, some cond⟩]⟩

/-- The loop body of run: operations execute in order; an unconditional
operation applies its gate; a conditional operation first measures the
condition qubit, consuming the next random draw, and applies its gate only
when the outcome equals the condition value.  Errors abort the run. -/
noncomputable def runOps :
    List GateOperation → SparseQuantumState → (ℕ → ℝ) →
      Except SimError (SparseQuantumState × (ℕ → ℝ))
  | [], st, rand => .ok (st, rand)
  | op :: rest, st, rand =>
    match op.condition with
    | none =>
      match st.applyGate op.gate op.qubits with
      | .error e => .error e
      | .ok st2 => runOps rest st2 rand
    | some cond =>
      match st.measure cond.qubit (rand 0) with
      | .error e => .error e
      | .ok (outcome, st2) =>
        if outcome = cond.value then
          match st2.applyGate op.gate op.qubits with
          | .error e => .error e
          | .ok st3 => runOps rest st3 (fun i => rand (i + 1))
        else runOps rest st2 (fun i => rand (i + 1))

/-- run from the source: construct a fresh state at (numQubits,
initialBasisState) and execute the operations in order. -/
noncomputable def Circuit.run (c : Circuit) (rand : ℕ → ℝ) :
    Except SimError SparseQuantumState :=
  match SparseQuantumState.make c.numQubits c.initialBasisState with
  | .error e => .error e
  | .ok st =>
    match runOps c.operations st rand with
    | .error e => .error e
    | .ok (st2, _) => .ok st2

/-- Probability vector derived in handleRunCircuit: raw probabilities are abs
squared of the amplitudes over the full index range; when their sum is
positive each entry is divided by the sum. -/
noncomputable def probVector (st : SparseQuantumState) : ℕ → ℝ := fun i =>
  if 0 < stateNormSq st.numQubits st.amplitudes then
    Complex.abs (st.amplitudes i) ^ 2 / stateNormSq st.numQubits st.amplitudes
  else Complex.abs (st.amplitudes i) ^ 2

/-- Bloch x-expectation from handleRunCircuit: over indices whose bit at q is
0, accumulate the real part of conj amp times the amplitude at the index with
bit q flipped, then double. -/
noncomputable def blochEx (st : SparseQuantumState) (q : ℕ) : ℝ :=
  2 * ∑ i ∈ Finset.range (2 ^ st.numQubits),
    if (i >>> q) &&& 1 = 0 then
      ((starRingEnd ℂ) (st.amplitudes i) * st.amplitudes (i ^^^ (1 <<< q))).re
    else 0

/-- Bloch y-expectation from handleRunCircuit: as blochEx with the imaginary
part. -/
noncomputable def blochEy (st : SparseQuantumState) (q : ℕ) : ℝ :=
  2 * ∑ i ∈ Finset.range (2 ^ st.numQubits),
    if (i >>> q) &&& 1 = 0 then
      ((starRingEnd ℂ) (st.amplitudes i) * st.amplitudes (i ^^^ (1 <<< q))).im
    else 0

/-- Bloch z-expectation from handleRunCircuit: abs squared of each amplitude,
signed +1 when the bit at q is 0 and -1 otherwise. -/
noncomputable def blochEz (st : SparseQuantumState) (q : ℕ) : ℝ :=
  ∑ i ∈ Finset.range (2 ^ st.numQubits),
    Complex.abs (st.amplitudes i) ^ 2 * (if (i >>> q) &&& 1 = 0 then 1 else -1)

/-- The radius computed by handleRunCircuit before clamping. -/
noncomputable def blochRRaw (st : SparseQuantumState) (q : ℕ) : ℝ :=
  Real.sqrt (blochEx st q ^ 2 + blochEy st q ^ 2 + blochEz st q ^ 2)

/-- Math.atan2 y x modelled as the principal argument of x + y i. -/
noncomputable def atan2 (y x : ℝ) : ℝ := Complex.arg ⟨x, y⟩

/-- Polar angle from handleRunCircuit: acos of ez over the unclamped radius
when the radius is positive, else 0. -/
noncomputable def blochTheta (st : SparseQuantumState) (q : ℕ) : ℝ :=
  if 0 < blochRRaw st q then Real.arccos (blochEz st q / blochRRaw st q) else 0

/-- Azimuthal angle from handleRunCircuit: atan2 ey ex when the radius is
positive, else 0. -/
noncomputable def blochPhi (st : SparseQuantumState) (q : ℕ) : ℝ :=
  if 0 < blochRRaw st q then atan2 (blochEy st q) (blochEx st q) else 0

/-- The radius reported by handleRunCircuit: min 1 of the raw radius. -/
noncomputable def blochR (st : SparseQuantumState) (q : ℕ) : ℝ :=
  min 1 (blochRRaw st q)

/-- The Bell preset of the circuit builder: two qubits, initial state 0,
Hadamard on qubit 0 then CNOT on qubits 0 and 1 in that listed order. -/
noncomputable def bellCircuit : Circuit :=
  ⟨2, 0, [⟨Gate.Hadamard, [0], none⟩, ⟨Gate.CNOT, [0, 1], none⟩]⟩

/-- Reading position i of the row list built by mapping f over List.range N
returns f i whenever i is in range. -/
lemma getD_range_map {α : Type} (f : ℕ → α) (N i : ℕ) (d : α) (h : i < N) :
    ((List.range N).map f).getD i d = f i := by
  rw [List.getD_eq_getElem?_getD]
  simp [List.getElem?_map, List.getElem?_range h]

/-- Base-two logarithm of a power of two. -/
lemma log2_pow (k : ℕ) : Nat.log2 (2 ^ k) = k := by
  rw [Nat.log2_eq_log_two]
  exact Nat.log_pow one_lt_two k

/-- A gate whose size is a power of two passes the arity computation. -/
lemma gateArity_of_size_pow (g : Gate) (k : ℕ) (hk : g.size = 2 ^ k) :
    gateArity g = .ok k := by
  simp [gateArity, hk, log2_pow]

/-- C9: the matrix returned by Diffusion 1 equals the PauliX matrix entrywise
(2/2 * J - I = [[0,1],[1,0]]), and the matrix returned by Oracle 1 1 equals
the PauliZ matrix entrywise. -/
theorem C9_diffusion1_eq_pauliX_and_oracle11_eq_pauliZ :
    Gate.Diffusion 1 = Gate.PauliX ∧ Gate.Oracle 1 1 = Gate.PauliZ := by
  have hrange : List.range (2 ^ 1) = [0, 1] := rfl
  constructor
  · simp only [Gate.Diffusion, Gate.PauliX, Gate.mk.injEq, hrange,
      List.map_cons, List.map_nil]
    norm_num
  · simp only [Gate.Oracle, Gate.PauliZ, Gate.mk.injEq, hrange,
      List.map_cons, List.map_nil]
    norm_num

/-- C3 (amended): the width-taking gate factories perform no validation and
never fail; for every width and mark they return a 2^w by 2^w matrix, the
Oracle diagonal carrying -1 exactly at a diagonal position equal to the mark
(so the identity when the mark is out of range), and the Diffusion matrix
equal to 2/2^w * J - I entrywise. -/
theorem C3_factory_matrices (w m : ℕ) :
    (Gate.Oracle w m).size = 2 ^ w ∧
    (Gate.Diffusion w).size = 2 ^ w ∧
    (∀ i j, i < 2 ^ w → j < 2 ^ w →
      (Gate.Oracle w m).entry i j =
        if i = j then (if i = m then -1 else 1) else 0) ∧
    (∀ i j, i < 2 ^ w → j < 2 ^ w →
      (Gate.Diffusion w).entry i j =
        2 / (2 ^ w : ℂ) * 1 - (if i = j then 1 else 0)) := by
  refine ⟨by simp [Gate.Oracle, Gate.size], by simp [Gate.Diffusion, Gate.size],
    fun i j hi hj => ?_, fun i j hi hj => ?_⟩
  · rw [Gate.entry, Gate.Oracle]
    rw [getD_range_map _ _ _ _ hi, getD_range_map _ _ _ _ hj]
    by_cases hij : i = j
    · simp [hij]
    · have hji : ¬j = i := fun h => hij h.symm
      simp [hij, hji]
  · rw [Gate.entry, Gate.Diffusion]
    rw [getD_range_map _ _ _ _ hi, getD_range_map _ _ _ _ hj]
    by_cases hij : i = j <;> simp [hij]

/-- C3 counterexample: Oracle with width 1 and mark 5 (out of the claimed
range [0, 2)) raises no error and returns the 2 by 2 identity matrix, while
the claim requires an InvalidArgument failure. -/
theorem C3_counterexample_oracle_mark_unvalidated :
    (Gate.Oracle 1 5).matrixData = [[1, 0], [0, 1]] := by
  have hrange : List.range (2 ^ 1) = [0, 1] := rfl
  simp only [Gate.Oracle, hrange, List.map_cons, List.map_nil]
  norm_num

/-- C3 witness: the factory characterization instantiated at width 1, mark 1,
entry (1, 1) of the Oracle and entry (0, 1) of the Diffusion. -/
theorem C3_factory_matrices_witness :
    (Gate.Oracle 1 1).entry 1 1 = -1 ∧ (Gate.Diffusion 1).entry 0 1 = 1 := by
  have h := C3_factory_matrices 1 1
  constructor
  · rw [h.2.2.1 1 1 (by norm_num) (by norm_num)]
    norm_num
  · rw [h.2.2.2 0 1 (by norm_num) (by norm_num)]
    norm_num

/-- C4 (amended): addGate fails with InvalidArgument exactly when some listed
index is outside the qubit range, the number of listed qubits differs from
log2 of the gate size, or (for arity above 1) the indices repeat; on success
it appends exactly the new operation.  addConditionalGate additionally fails
when the condition qubit is out of range or collides with a target qubit —
but the condition value is NOT validated.  In this functional embedding a
failing call returns only the error, so the circuit passed in is untouched. -/
theorem C4_add_validation (c : Circuit) (g : Gate) (qubits : List ℕ)
    (cond : Condition) (k : ℕ) (hk : g.size = 2 ^ k) :
    (c.addGate g qubits =
      if (∃ q ∈ qubits, c.numQubits ≤ q) ∨ qubits.length ≠ k ∨
          (1 < k ∧ ¬qubits.Nodup) then
        .error .InvalidArgument
      else .ok ⟨c.numQubits, c.initialBasisState,
        c.operations ++ [⟨g, qubits, none⟩]⟩) ∧
    (c.addConditionalGate g qubits cond =
      if (∃ q ∈ qubits, c.numQubits ≤ q) ∨ c.numQubits ≤ cond.qubit ∨
          cond.qubit ∈ qubits ∨ qubits.length ≠ k ∨
          (1 < k ∧ ¬qubits.Nodup) then
        .error .InvalidArgument
      else .ok ⟨c.numQubits, c.initialBasisState,
        c.operations ++ [⟨g, qubits, some cond⟩]⟩) := by
  have harity := gateArity_of_size_pow g k hk
  have hany : (qubits.any fun q => c.numQubits ≤ q) = true ↔
      ∃ q ∈ qubits, c.numQubits ≤ q := by
    simp [List.any_eq_true]
  constructor
  · rw [Circuit.addGate]
    by_cases h1 : ∃ q ∈ qubits, c.numQubits ≤ q
    · rw [if_pos (hany.mpr h1), if_pos (Or.inl h1)]
    · rw [if_neg (fun hc => h1 (hany.mp hc)), validateArity, harity]
      by_cases h2 : qubits.length = k
      · by_cases h3 : 1 < k ∧ ¬qubits.Nodup
        · simp [h2, h3, h1]
        · simp [h2, h3, h1]
      · simp [h2, h1]
  · rw [Circuit.addConditionalGate]
    by_cases h1 : ∃ q ∈ qubits, c.numQubits ≤ q
    · rw [if_pos (hany.mpr h1), if_pos (Or.inl h1)]
    · rw [if_neg (fun hc => h1 (hany.mp hc))]
      by_cases hcq : c.numQubits ≤ cond.qubit
      · simp [hcq]
      · rw [if_neg hcq]
        by_cases hmem : cond.qubit ∈ qubits
        · simp [hmem, hcq]
        · rw [if_neg hmem, validateArity, harity]
          by_cases h2 : qubits.length = k
          · by_cases h3 : 1 < k ∧ ¬qubits.Nodup
            · simp [h2, h3, h1, hcq, hmem]
            · simp [h2, h3, h1, hcq, hmem]
          · simp [h2, h1, hcq, hmem]

/-- C4 witness: the characterization instantiated on a two-qubit circuit with
PauliX on qubit 1: the unconditional add succeeds and appends the single
operation. -/
theorem C4_add_validation_witness :
    (Circuit.make 2 0).addGate Gate.PauliX [1] =
      .ok ⟨2, 0, [⟨Gate.PauliX, [1], none⟩]⟩ := by
  have h := (C4_add_validation (Circuit.make 2 0) Gate.PauliX [1] ⟨0, 0⟩ 1 rfl).1
  rw [h, if_neg]
  · simp [Circuit.make]
  · simp [Circuit.make]

/-- C4 counterexample: addConditionalGate accepts condition value 2, which the
claim requires to be rejected with InvalidArgument; the operation is appended
with the unvalidated value. -/
theorem C4_counterexample_condition_value_unvalidated :
    (Circuit.make 2 0).addConditionalGate Gate.PauliX [1] ⟨0, 2⟩ =
      .ok ⟨2, 0, [⟨Gate.PauliX, [1], some ⟨0, 2⟩⟩]⟩ := by
  rw [Circuit.addConditionalGate]
  rw [if_neg (by decide), if_neg (by decide), if_neg (by decide)]
  rw [validateArity, gateArity_of_size_pow Gate.PauliX 1 rfl]
  norm_num [Circuit.make]

/-- C5 (amended): constructing a Circuit never fails for any arguments — the
constructor stores n and initial verbatim with no validation; the range check
on initial happens when Run constructs the fresh state, so Run of an
operation-free circuit fails with OutOfRange exactly when initial is not in
[0, 2^n), and otherwise starts from the state with amplitude (1, 0) at index
initial; n itself (including n = 0) is never validated. -/
theorem C5_construction_and_initial_state (n initial : ℕ) (rand : ℕ → ℝ) :
    (Circuit.make n initial).numQubits = n ∧
    (Circuit.make n initial).initialBasisState = initial ∧
    (initial < 2 ^ n →
      (Circuit.make n initial).run rand =
        .ok ⟨n, fun i => if i = initial then 1 else 0, true⟩) ∧
    (2 ^ n ≤ initial →
      (Circuit.make n initial).run rand = .error .OutOfRange) := by
  have h2 : 1 ≤ 2 ^ n := Nat.one_le_two_pow
  refine ⟨rfl, rfl, fun hlt => ?_, fun hge => ?_⟩
  · simp only [Circuit.run, Circuit.make, SparseQuantumState.make]
    rw [if_neg (by omega)]
    rfl
  · simp only [Circuit.run, Circuit.make, SparseQuantumState.make]
    rw [if_pos (by omega)]

/-- C5 witness: a one-qubit circuit with initial state 0 runs to the fresh
state concentrated at 0, and with initial state 5 the run (not the
construction) reports the out-of-range error. -/
theorem C5_construction_and_initial_state_witness :
    (Circuit.make 1 0).run (fun _ => 0) =
      .ok ⟨1, fun i => if i = 0 then 1 else 0, true⟩ ∧
    (Circuit.make 1 5).run (fun _ => 0) = .error .OutOfRange :=
  ⟨(C5_construction_and_initial_state 1 0 _).2.2.1 (by norm_num),
   (C5_construction_and_initial_state 1 5 _).2.2.2 (by norm_num)⟩

/-- C5 counterexample: a circuit with n = 0 (violating the claimed requirement
n ≥ 1) is constructed without any error and even runs successfully, so
construction does not fail with InvalidArgument when n < 1. -/
theorem C5_counterexample_zero_qubits_accepted :
    (Circuit.make 0 0).run (fun _ => 0) =
      .ok ⟨0, fun i => if i = 0 then 1 else 0, true⟩ := by
  rw [Circuit.run, Circuit.make, SparseQuantumState.make]
  norm_num
  rfl

/-- Running a conditional-free operation list never consults the random
stream: the resulting state (and error behaviour) is the same for any two
streams. -/
lemma runOps_conditional_free_deterministic (ops : List GateOperation)
    (h : ∀ op ∈ ops, op.condition = none) (st : SparseQuantumState)
    (r1 r2 : ℕ → ℝ) :
    (runOps ops st r1).map Prod.fst = (runOps ops st r2).map Prod.fst := by
  induction ops generalizing st with
  | nil => rfl
  | cons op rest ih =>
    have hop : op.condition = none := h op (List.mem_cons_self op rest)
    have hrest : ∀ o ∈ rest, o.condition = none :=
      fun o ho => h o (List.mem_cons_of_mem op ho)
    rw [runOps, runOps, hop]
    cases happ : st.applyGate op.gate op.qubits with
    | error e => rfl
    | ok st2 => exact ih hrest st2

/-- Peeling the trailing random stream off runOps gives the run result. -/
lemma run_eq_runOps_map (c : Circuit) (rand : ℕ → ℝ) (st : SparseQuantumState)
    (hmk : SparseQuantumState.make c.numQubits c.initialBasisState = .ok st) :
    c.run rand = (runOps c.operations st rand).map Prod.fst := by
  rw [Circuit.run, hmk]
  show (match runOps c.operations st rand with
    | Except.error e => (Except.error e : Except SimError SparseQuantumState)
    | Except.ok (st2, _) => Except.ok st2) = _
  cases runOps c.operations st rand with
  | error e => rfl
  | ok p => cases p with | mk st2 r => rfl

/-- C7: a circuit whose operations all lack a condition runs to the same
result under any two random sources (no random draw occurs), and — since the
embedding gives Run as a mathematical function of the circuit record and the
stream — Run with a fixed stream depends only on (n, initial, ops). -/
theorem C7_conditional_free_run_deterministic (c : Circuit)
    (h : ∀ op ∈ c.operations, op.condition = none) (r1 r2 : ℕ → ℝ) :
    c.run r1 = c.run r2 ∧
    (∀ c2 : Circuit, c2.numQubits = c.numQubits →
      c2.initialBasisState = c.initialBasisState →
      c2.operations = c.operations → c2.run r1 = c.run r1) := by
  constructor
  · cases hmk : SparseQuantumState.make c.numQubits c.initialBasisState with
    | error e => rw [Circuit.run, Circuit.run, hmk]
    | ok st =>
      rw [run_eq_runOps_map c r1 st hmk, run_eq_runOps_map c r2 st hmk]
      exact runOps_conditional_free_deterministic c.operations h st r1 r2
  · intro c2 hn hi ho
    cases c with
    | mk n initial ops =>
      cases c2 with
      | mk n2 initial2 ops2 =>
        simp only at hn hi ho
        rw [hn, hi, ho]

/-- C7 witness: the Bell preset is conditional-free, and its run under the
constant-zero stream equals its run under the constant-one stream. -/
theorem C7_conditional_free_run_deterministic_witness :
    bellCircuit.run (fun _ => 0) = bellCircuit.run (fun _ => 1) :=
  (C7_conditional_free_run_deterministic bellCircuit
    (by simp [bellCircuit]) (fun _ => 0) (fun _ => 1)).1

/-- The bit extracted by the measurement loop is 0 or 1. -/
lemma bit_lt_two (i q : ℕ) : (i >>> q) &&& 1 < 2 := by
  rw [Nat.and_one_is_mod]
  exact Nat.mod_lt _ (by norm_num)

/-- The squared-magnitude mass splits along the measured bit. -/
lemma bit_partition (n q : ℕ) (a : ℕ → ℂ) :
    (∑ i ∈ Finset.range (2 ^ n),
        if (i >>> q) &&& 1 = 0 then Complex.abs (a i) ^ 2 else 0) +
      (∑ i ∈ Finset.range (2 ^ n),
        if (i >>> q) &&& 1 = 1 then Complex.abs (a i) ^ 2 else 0) =
      stateNormSq n a := by
  rw [stateNormSq, ← Finset.sum_add_distrib]
  refine Finset.sum_congr rfl fun i _ => ?_
  have hb := bit_lt_two i q
  by_cases h0 : (i >>> q) &&& 1 = 0
  · simp [h0]
  · have h1 : (i >>> q) &&& 1 = 1 := by omega
    simp [h0, h1]

/-- A filtered sum of squared magnitudes is nonnegative. -/
lemma filtered_prob_nonneg (n : ℕ) (a : ℕ → ℂ) (p : ℕ → Prop) [DecidablePred p] :
    0 ≤ ∑ i ∈ Finset.range (2 ^ n), if p i then Complex.abs (a i) ^ 2 else 0 := by
  refine Finset.sum_nonneg fun i _ => ?_
  by_cases h : p i
  · rw [if_pos h]
    positivity
  · rw [if_neg h]

/-- Squared-magnitude mass of the post-deletion amplitude map: only indices
whose measured bit equals the outcome contribute. -/
lemma stateNormSq_measureProjected (st : SparseQuantumState) (q : ℕ) (u : ℝ) :
    stateNormSq st.numQubits (measureProjected st q u) =
      ∑ i ∈ Finset.range (2 ^ st.numQubits),
        if (i >>> q) &&& 1 = measureOutcome st q u then
          Complex.abs (st.amplitudes i) ^ 2 else 0 := by
  rw [stateNormSq]
  refine Finset.sum_congr rfl fun i _ => ?_
  rw [measureProjected]
  by_cases h : (i >>> q) &&& 1 = measureOutcome st q u
  · rw [if_neg (not_ne_iff.mpr h), if_pos h]
  · rw [if_pos h, if_neg h]
    simp

/-- Magnitude of a complex number whose parts are both divided by a
nonnegative real. -/
lemma abs_componentwise_div (z : ℂ) (r : ℝ) (hr : 0 ≤ r) :
    Complex.abs ⟨z.re / r, z.im / r⟩ = Complex.abs z / r := by
  rcases eq_or_lt_of_le hr with h0 | hpos
  · rw [← h0]
    have hz : (⟨z.re / 0, z.im / 0⟩ : ℂ) = 0 := by
      rw [div_zero, div_zero]
      rfl
    rw [hz, div_zero, map_zero]
  · rw [Complex.abs_apply, Complex.abs_apply, Complex.normSq_mk, Complex.normSq_apply]
    have h1 : z.re / r * (z.re / r) + z.im / r * (z.im / r)
        = (z.re * z.re + z.im * z.im) / r ^ 2 := by
      rw [div_mul_div_comm, div_mul_div_comm, div_add_div_same, sq]
    have h2 : (0 : ℝ) ≤ z.re * z.re + z.im * z.im :=
      add_nonneg (mul_self_nonneg _) (mul_self_nonneg _)
    rw [h1, Real.sqrt_div h2 _, Real.sqrt_sq hr]

/-- On a unit-norm state with a draw in [0, 1), measure succeeds: whichever
outcome the draw selects, the surviving entries carry positive total
probability, so the renormalization divides by a positive norm. -/
lemma measure_unit_ok (st : SparseQuantumState) (q : ℕ) (u : ℝ)
    (hnorm : stateNormSq st.numQubits st.amplitudes = 1)
    (hu0 : 0 ≤ u) (hu1 : u < 1) :
    0 < stateNormSq st.numQubits (measureProjected st q u) ∧
    st.measure q u = .ok (measureOutcome st q u,
      ⟨st.numQubits, fun i =>
        ⟨(measureProjected st q u i).re /
            Real.sqrt (stateNormSq st.numQubits (measureProjected st q u)),
         (measureProjected st q u i).im /
            Real.sqrt (stateNormSq st.numQubits (measureProjected st q u))⟩,
        st.normalizeEachStep⟩) := by
  have hpos : 0 < stateNormSq st.numQubits (measureProjected st q u) := by
    rw [stateNormSq_measureProjected]
    by_cases hc : u < measureProb0 st q
    · have ho : measureOutcome st q u = 0 := by rw [measureOutcome, if_pos hc]
      rw [ho]
      have hsum : (∑ i ∈ Finset.range (2 ^ st.numQubits),
          if (i >>> q) &&& 1 = 0 then Complex.abs (st.amplitudes i) ^ 2 else 0) =
          measureProb0 st q := rfl
      rw [hsum]
      exact lt_of_le_of_lt hu0 hc
    · have ho : measureOutcome st q u = 1 := by rw [measureOutcome, if_neg hc]
      rw [ho]
      have hpart := bit_partition st.numQubits q st.amplitudes
      rw [hnorm] at hpart
      have hsum : (∑ i ∈ Finset.range (2 ^ st.numQubits),
          if (i >>> q) &&& 1 = 0 then Complex.abs (st.amplitudes i) ^ 2 else 0) =
          measureProb0 st q := rfl
      rw [hsum] at hpart
      have hle : measureProb0 st q ≤ u := le_of_not_lt hc
      linarith
  have hsqrt_pos : 0 < Real.sqrt (stateNormSq st.numQubits (measureProjected st q u)) :=
    Real.sqrt_pos.mpr hpos
  refine ⟨hpos, ?_⟩
  rw [SparseQuantumState.measure, normalizeAmps, if_neg (ne_of_gt hsqrt_pos)]

/-- C2: with a unit-norm pre-state, a qubit in range and a uniform draw in
[0, 1), Measure computes p0 as the mass on bit 0, returns outcome 0 iff
u < p0, zeroes every entry whose measured bit differs from the outcome, and
renormalizes, so that in the post-state the probability of the returned
outcome is 1 and the probability of the opposite value is 0. -/
theorem C2_measure_outcome_and_collapse (st : SparseQuantumState) (q : ℕ) (u : ℝ)
    (_hq : q < st.numQubits)
    (hnorm : stateNormSq st.numQubits st.amplitudes = 1)
    (hu0 : 0 ≤ u) (hu1 : u < 1) :
    ∃ post : SparseQuantumState,
      st.measure q u = .ok ((if u < measureProb0 st q then 0 else 1), post) ∧
      (∀ i, (i >>> q) &&& 1 ≠ (if u < measureProb0 st q then 0 else 1) →
        post.amplitudes i = 0) ∧
      (∑ i ∈ Finset.range (2 ^ st.numQubits),
        if (i >>> q) &&& 1 = (if u < measureProb0 st q then 0 else 1) then
          Complex.abs (post.amplitudes i) ^ 2 else 0) = 1 ∧
      (∑ i ∈ Finset.range (2 ^ st.numQubits),
        if (i >>> q) &&& 1 ≠ (if u < measureProb0 st q then 0 else 1) then
          Complex.abs (post.amplitudes i) ^ 2 else 0) = 0 := by
  have hout : (if u < measureProb0 st q then 0 else 1) = measureOutcome st q u := rfl
  simp only [hout]
  obtain ⟨hpos, heq⟩ := measure_unit_ok st q u hnorm hu0 hu1
  have hzero : ∀ i, (i >>> q) &&& 1 ≠ measureOutcome st q u →
      (⟨(measureProjected st q u i).re /
          Real.sqrt (stateNormSq st.numQubits (measureProjected st q u)),
        (measureProjected st q u i).im /
          Real.sqrt (stateNormSq st.numQubits (measureProjected st q u))⟩ : ℂ) = 0 := by
    intro i hi
    have hp : measureProjected st q u i = 0 := by
      rw [measureProjected, if_pos hi]
    rw [hp]
    simp [Complex.ext_iff]
  refine ⟨_, heq, fun i hi => hzero i hi, ?_, ?_⟩
  · dsimp only
    have hterm : ∀ i ∈ Finset.range (2 ^ st.numQubits),
        (if (i >>> q) &&& 1 = measureOutcome st q u then
          Complex.abs ((⟨(measureProjected st q u i).re /
              Real.sqrt (stateNormSq st.numQubits (measureProjected st q u)),
            (measureProjected st q u i).im /
              Real.sqrt (stateNormSq st.numQubits (measureProjected st q u))⟩ : ℂ)) ^ 2
          else 0) =
        (if (i >>> q) &&& 1 = measureOutcome st q u then
          Complex.abs (st.amplitudes i) ^ 2 else 0) /
          stateNormSq st.numQubits (measureProjected st q u) := by
      intro i _
      by_cases h : (i >>> q) &&& 1 = measureOutcome st q u
      · rw [if_pos h, if_pos h, abs_componentwise_div _ _ (Real.sqrt_nonneg _),
          div_pow, Real.sq_sqrt (le_of_lt hpos)]
        have hp : measureProjected st q u i = st.amplitudes i := by
          rw [measureProjected, if_neg (not_ne_iff.mpr h)]
        rw [hp]
      · rw [if_neg h, if_neg h, zero_div]
    rw [Finset.sum_congr rfl hterm, ← Finset.sum_div,
      ← stateNormSq_measureProjected st q u, div_self (ne_of_gt hpos)]
  · refine Finset.sum_eq_zero fun i _ => ?_
    dsimp only
    by_cases h : (i >>> q) &&& 1 ≠ measureOutcome st q u
    · rw [if_pos h, hzero i h]
      simp
    · rw [if_neg h]

/-- C2 witness: the one-qubit basis state at 0 measured on qubit 0 with draw
one half. -/
theorem C2_measure_outcome_and_collapse_witness :
    ∃ post : SparseQuantumState,
      (⟨1, fun i => if i = 0 then 1 else 0, true⟩ :
          SparseQuantumState).measure 0 (1 / 2) =
        .ok ((if (1 / 2 : ℝ) < measureProb0
            ⟨1, fun i => if i = 0 then 1 else 0, true⟩ 0 then 0 else 1), post) ∧
      (∀ i, (i >>> 0) &&& 1 ≠ (if (1 / 2 : ℝ) < measureProb0
            ⟨1, fun i => if i = 0 then 1 else 0, true⟩ 0 then 0 else 1) →
        post.amplitudes i = 0) ∧
      (∑ i ∈ Finset.range (2 ^ 1),
        if (i >>> 0) &&& 1 = (if (1 / 2 : ℝ) < measureProb0
            ⟨1, fun i => if i = 0 then 1 else 0, true⟩ 0 then 0 else 1) then
          Complex.abs (post.amplitudes i) ^ 2 else 0) = 1 ∧
      (∑ i ∈ Finset.range (2 ^ 1),
        if (i >>> 0) &&& 1 ≠ (if (1 / 2 : ℝ) < measureProb0
            ⟨1, fun i => if i = 0 then 1 else 0, true⟩ 0 then 0 else 1) then
          Complex.abs (post.amplitudes i) ^ 2 else 0) = 0 :=
  C2_measure_outcome_and_collapse ⟨1, fun i => if i = 0 then 1 else 0, true⟩ 0 (1 / 2)
    (by norm_num)
    (by simp [stateNormSq, Finset.sum_range_succ])
    (by norm_num) (by norm_num)

/-- C6: on a unit-norm pre-state (exact arithmetic) with a qubit in range,
measure never reports the degenerate-state error: the surviving entries have
positive total probability, so normalization after projection does not see a
zero norm. -/
theorem C6_measure_never_degenerate (st : SparseQuantumState) (q : ℕ) (u : ℝ)
    (_hq : q < st.numQubits)
    (hnorm : stateNormSq st.numQubits st.amplitudes = 1)
    (hu0 : 0 ≤ u) (hu1 : u < 1) :
    0 < stateNormSq st.numQubits (measureProjected st q u) ∧
    st.measure q u ≠ .error .DegenerateState := by
  obtain ⟨hpos, heq⟩ := measure_unit_ok st q u hnorm hu0 hu1
  refine ⟨hpos, ?_⟩
  rw [heq]
  exact fun h => Except.noConfusion h

/-- C6 witness: the one-qubit basis state at 0 measured on qubit 0 with draw
one third. -/
theorem C6_measure_never_degenerate_witness :
    0 < stateNormSq 1 (measureProjected
        ⟨1, fun i => if i = 0 then 1 else 0, true⟩ 0 (1 / 3)) ∧
    (⟨1, fun i => if i = 0 then 1 else 0, true⟩ :
        SparseQuantumState).measure 0 (1 / 3) ≠ .error .DegenerateState :=
  C6_measure_never_degenerate ⟨1, fun i => if i = 0 then 1 else 0, true⟩ 0 (1 / 3)
    (by norm_num)
    (by simp [stateNormSq, Finset.sum_range_succ])
    (by norm_num) (by norm_num)

/-- With the untruncated bit test (exact for shift counts below 32), on a
unit-norm state whose keys all lie below 2^n, measuring a qubit index at or
above n raises no error, returns outcome 0 (p0 equals the whole unit mass,
so any draw below 1 selects 0), deletes nothing, and renormalizes by
dividing by norm 1, leaving the amplitude map unchanged. -/
lemma measure_untruncated_high_qubit_noop (st : SparseQuantumState) (q : ℕ)
    (u : ℝ) (hq : st.numQubits ≤ q)
    (hsupp : ∀ i, 2 ^ st.numQubits ≤ i → st.amplitudes i = 0)
    (hnorm : stateNormSq st.numQubits st.amplitudes = 1)
    (_hu0 : 0 ≤ u) (hu1 : u < 1) :
    st.measure q u = .ok (0, st) := by
  have hbit : ∀ i, i < 2 ^ st.numQubits → (i >>> q) &&& 1 = 0 := by
    intro i hi
    have h2 : 2 ^ st.numQubits ≤ 2 ^ q := Nat.pow_le_pow_right (by norm_num) hq
    have hz : i >>> q = 0 := by
      rw [Nat.shiftRight_eq_div_pow]
      exact Nat.div_eq_of_lt (lt_of_lt_of_le hi h2)
    rw [hz]
    rfl
  have hp0 : measureProb0 st q = 1 := by
    rw [measureProb0, ← hnorm, stateNormSq]
    refine Finset.sum_congr rfl fun i hi => ?_
    rw [if_pos (hbit i (Finset.mem_range.mp hi))]
  have hout : measureOutcome st q u = 0 := by
    rw [measureOutcome, hp0, if_pos hu1]
  have hproj : measureProjected st q u = st.amplitudes := by
    funext i
    rw [measureProjected, hout]
    by_cases hb : (i >>> q) &&& 1 = 0
    · rw [if_neg (not_ne_iff.mpr hb)]
    · rw [if_pos hb]
      have hge : 2 ^ q ≤ i := by
        by_contra hlt
        push_neg at hlt
        have hz : i >>> q = 0 := by
          rw [Nat.shiftRight_eq_div_pow]
          exact Nat.div_eq_of_lt hlt
        rw [hz] at hb
        simp at hb
      have h2 : 2 ^ st.numQubits ≤ 2 ^ q := Nat.pow_le_pow_right (by norm_num) hq
      exact (hsupp i (le_trans h2 hge)).symm
  have hS : stateNormSq st.numQubits (measureProjected st q u) = 1 := by
    rw [hproj, hnorm]
  rw [SparseQuantumState.measure, normalizeAmps, hS, Real.sqrt_one,
    if_neg one_ne_zero, hout]
  have hamps : (fun i => (⟨(measureProjected st q u i).re / 1,
      (measureProjected st q u i).im / 1⟩ : ℂ)) = st.amplitudes := by
    funext i
    rw [div_one, div_one, hproj]
  show Except.ok (0, (⟨st.numQubits, fun i => ⟨(measureProjected st q u i).re / 1,
      (measureProjected st q u i).im / 1⟩, st.normalizeEachStep⟩ :
        SparseQuantumState)) = Except.ok (0, st)
  rw [hamps]


/-- The bit test used across the source, expressed through Nat.testBit. -/
lemma bit_eq_zero_iff (x q : ℕ) : (x >>> q) &&& 1 = 0 ↔ x.testBit q = false := by
  have h1 : (x >>> q) &&& 1 = x / 2 ^ q % 2 := by
    rw [Nat.and_one_is_mod, Nat.shiftRight_eq_div_pow]
  have hd : x / 2 ^ q % 2 < 2 := Nat.mod_lt _ (by norm_num)
  rw [h1, Nat.testBit_to_div_mod]
  simp only [decide_eq_false_iff_not]
  omega

/-- The off-diagonal coherence sum of the Bloch derivation, as one complex
number. -/
noncomputable def blochCoherence (st : SparseQuantumState) (q : ℕ) : ℂ :=
  ∑ i ∈ Finset.range (2 ^ st.numQubits),
    if (i >>> q) &&& 1 = 0 then
      (starRingEnd ℂ) (st.amplitudes i) * st.amplitudes (i ^^^ (1 <<< q))
    else 0

/-- The accumulated x-expectation is twice the real part of the coherence. -/
lemma blochEx_eq_coherence_re (st : SparseQuantumState) (q : ℕ) :
    blochEx st q = 2 * (blochCoherence st q).re := by
  rw [blochEx, blochCoherence, Complex.re_sum]
  congr 1
  refine Finset.sum_congr rfl fun i _ => ?_
  by_cases h : (i >>> q) &&& 1 = 0
  · rw [if_pos h, if_pos h]
  · rw [if_neg h, if_neg h, Complex.zero_re]

/-- The accumulated y-expectation is twice the imaginary part of the
coherence. -/
lemma blochEy_eq_coherence_im (st : SparseQuantumState) (q : ℕ) :
    blochEy st q = 2 * (blochCoherence st q).im := by
  rw [blochEy, blochCoherence, Complex.im_sum]
  congr 1
  refine Finset.sum_congr rfl fun i _ => ?_
  by_cases h : (i >>> q) &&& 1 = 0
  · rw [if_pos h, if_pos h]
  · rw [if_neg h, if_neg h, Complex.zero_im]

/-- The signed z-expectation splits as bit-0 mass minus bit-1 mass. -/
lemma blochEz_split (st : SparseQuantumState) (q : ℕ) :
    blochEz st q =
      (∑ i ∈ Finset.range (2 ^ st.numQubits),
        if (i >>> q) &&& 1 = 0 then Complex.abs (st.amplitudes i) ^ 2 else 0) -
      (∑ i ∈ Finset.range (2 ^ st.numQubits),
        if (i >>> q) &&& 1 ≠ 0 then Complex.abs (st.amplitudes i) ^ 2 else 0) := by
  rw [blochEz, ← Finset.sum_sub_distrib]
  refine Finset.sum_congr rfl fun i _ => ?_
  by_cases h : (i >>> q) &&& 1 = 0
  · rw [if_pos h, if_pos h, if_neg (not_not_intro h)]
    ring
  · rw [if_neg h, if_neg h, if_pos h]
    ring

/-- On a unit-norm state with an in-range qubit, the raw Bloch radius never
exceeds 1: the coherence obeys Cauchy-Schwarz against the two bit masses. -/
lemma blochRRaw_le_one (st : SparseQuantumState) (q : ℕ)
    (hq : q < st.numQubits)
    (hnorm : stateNormSq st.numQubits st.amplitudes = 1) :
    blochRRaw st q ≤ 1 := by
  classical
  have hm : (1 <<< q) = 2 ^ q := Nat.one_shiftLeft q
  have hA0 : (0 : ℝ) ≤ ∑ i ∈ (Finset.range (2 ^ st.numQubits)).filter
      (fun i => (i >>> q) &&& 1 = 0), Complex.abs (st.amplitudes i) ^ 2 :=
    Finset.sum_nonneg fun i _ => by positivity
  have hB0 : (0 : ℝ) ≤ ∑ i ∈ (Finset.range (2 ^ st.numQubits)).filter
      (fun i => ¬((i >>> q) &&& 1 = 0)), Complex.abs (st.amplitudes i) ^ 2 :=
    Finset.sum_nonneg fun i _ => by positivity
  have hAB : (∑ i ∈ (Finset.range (2 ^ st.numQubits)).filter
        (fun i => (i >>> q) &&& 1 = 0), Complex.abs (st.amplitudes i) ^ 2) +
      (∑ i ∈ (Finset.range (2 ^ st.numQubits)).filter
        (fun i => ¬((i >>> q) &&& 1 = 0)), Complex.abs (st.amplitudes i) ^ 2) = 1 := by
    rw [Finset.sum_filter_add_sum_filter_not]
    exact hnorm
  have hez : blochEz st q =
      (∑ i ∈ (Finset.range (2 ^ st.numQubits)).filter
        (fun i => (i >>> q) &&& 1 = 0), Complex.abs (st.amplitudes i) ^ 2) -
      (∑ i ∈ (Finset.range (2 ^ st.numQubits)).filter
        (fun i => ¬((i >>> q) &&& 1 = 0)), Complex.abs (st.amplitudes i) ^ 2) := by
    rw [blochEz_split, Finset.sum_filter, Finset.sum_filter]
  have hc_filter : blochCoherence st q =
      ∑ i ∈ (Finset.range (2 ^ st.numQubits)).filter
        (fun i => (i >>> q) &&& 1 = 0),
        (starRingEnd ℂ) (st.amplitudes i) * st.amplitudes (i ^^^ (1 <<< q)) := by
    rw [blochCoherence, Finset.sum_filter]
  have habs1 : Complex.abs (blochCoherence st q) ≤
      ∑ i ∈ (Finset.range (2 ^ st.numQubits)).filter
        (fun i => (i >>> q) &&& 1 = 0),
        Complex.abs (st.amplitudes i) * Complex.abs (st.amplitudes (i ^^^ (1 <<< q))) := by
    rw [hc_filter]
    refine le_trans (Complex.abs.sum_le _ _) ?_
    refine Finset.sum_le_sum fun i _ => ?_
    rw [map_mul, Complex.abs_conj]
  have hcs := Finset.sum_mul_sq_le_sq_mul_sq
    ((Finset.range (2 ^ st.numQubits)).filter (fun i => (i >>> q) &&& 1 = 0))
    (fun i => Complex.abs (st.amplitudes i))
    (fun i => Complex.abs (st.amplitudes (i ^^^ (1 <<< q))))
  have hsub : ((Finset.range (2 ^ st.numQubits)).filter
        (fun i => (i >>> q) &&& 1 = 0)).image (fun i => i ^^^ (1 <<< q)) ⊆
      (Finset.range (2 ^ st.numQubits)).filter (fun i => ¬((i >>> q) &&& 1 = 0)) := by
    intro j hj
    obtain ⟨i, hi, rfl⟩ := Finset.mem_image.mp hj
    rw [Finset.mem_filter] at hi
    obtain ⟨hir, hib⟩ := hi
    rw [Finset.mem_filter]
    constructor
    · refine Finset.mem_range.mpr ?_
      rw [hm]
      exact Nat.xor_lt_two_pow (Finset.mem_range.mp hir)
        (Nat.pow_lt_pow_right one_lt_two hq)
    · rw [bit_eq_zero_iff] at hib ⊢
      rw [hm, Nat.testBit_xor, hib, Nat.testBit_two_pow_self]
      simp
  have himg_bound : (∑ i ∈ (Finset.range (2 ^ st.numQubits)).filter
        (fun i => (i >>> q) &&& 1 = 0),
        Complex.abs (st.amplitudes (i ^^^ (1 <<< q))) ^ 2) ≤
      ∑ i ∈ (Finset.range (2 ^ st.numQubits)).filter
        (fun i => ¬((i >>> q) &&& 1 = 0)), Complex.abs (st.amplitudes i) ^ 2 := by
    have himage : (∑ i ∈ (Finset.range (2 ^ st.numQubits)).filter
          (fun i => (i >>> q) &&& 1 = 0),
          Complex.abs (st.amplitudes (i ^^^ (1 <<< q))) ^ 2) =
        ∑ j ∈ ((Finset.range (2 ^ st.numQubits)).filter
          (fun i => (i >>> q) &&& 1 = 0)).image (fun i => i ^^^ (1 <<< q)),
          Complex.abs (st.amplitudes j) ^ 2 := by
      rw [Finset.sum_image fun x _ y _ h => Nat.xor_left_inj.mp h]
    rw [himage]
    exact Finset.sum_le_sum_of_subset_of_nonneg hsub fun j _ _ => by positivity
  have habs2 : Complex.abs (blochCoherence st q) ^ 2 ≤
      (∑ i ∈ (Finset.range (2 ^ st.numQubits)).filter
        (fun i => (i >>> q) &&& 1 = 0), Complex.abs (st.amplitudes i) ^ 2) *
      (∑ i ∈ (Finset.range (2 ^ st.numQubits)).filter
        (fun i => ¬((i >>> q) &&& 1 = 0)), Complex.abs (st.amplitudes i) ^ 2) := by
    refine le_trans (pow_le_pow_left₀ (AbsoluteValue.nonneg _ _) habs1 2) ?_
    refine le_trans hcs ?_
    exact mul_le_mul_of_nonneg_left himg_bound hA0
  have h4 : blochEx st q ^ 2 + blochEy st q ^ 2 =
      4 * Complex.abs (blochCoherence st q) ^ 2 := by
    rw [blochEx_eq_coherence_re, blochEy_eq_coherence_im, Complex.sq_abs,
      Complex.normSq_apply]
    ring
  rw [blochRRaw]
  refine Real.sqrt_le_one.mpr ?_
  nlinarith [habs2, hAB, hA0, hB0, h4, hez]

/-- C8: for a unit-norm final state and an in-range qubit, the derived Bloch
parameters satisfy the specified formulas: e_x + i e_y is twice the
off-diagonal coherence sum, e_z is the bit-signed mass difference, the
reported radius is sqrt of the squared expectations clamped to the unit
interval, and the angles use acos and atan2 with the zero-radius default 0. -/
theorem C8_bloch_parameters (st : SparseQuantumState) (q : ℕ)
    (hq : q < st.numQubits)
    (hnorm : stateNormSq st.numQubits st.amplitudes = 1) :
    ((blochEx st q : ℂ) + (blochEy st q : ℂ) * Complex.I =
      2 * ∑ i ∈ Finset.range (2 ^ st.numQubits),
        if (i >>> q) &&& 1 = 0 then
          (starRingEnd ℂ) (st.amplitudes i) * st.amplitudes (i ^^^ (1 <<< q))
        else 0) ∧
    (blochEz st q =
      (∑ i ∈ Finset.range (2 ^ st.numQubits),
        if (i >>> q) &&& 1 = 0 then Complex.abs (st.amplitudes i) ^ 2 else 0) -
      (∑ i ∈ Finset.range (2 ^ st.numQubits),
        if (i >>> q) &&& 1 ≠ 0 then Complex.abs (st.amplitudes i) ^ 2 else 0)) ∧
    (blochR st q = max 0 (min 1
      (Real.sqrt (blochEx st q ^ 2 + blochEy st q ^ 2 + blochEz st q ^ 2)))) ∧
    (blochTheta st q =
      if 0 < blochR st q then Real.arccos (blochEz st q / blochR st q) else 0) ∧
    (blochPhi st q =
      if 0 < blochR st q then atan2 (blochEy st q) (blochEx st q) else 0) := by
  have hle := blochRRaw_le_one st q hq hnorm
  have hRR : blochR st q = blochRRaw st q := min_eq_right hle
  refine ⟨?_, blochEz_split st q, ?_, ?_, ?_⟩
  · show (blochEx st q : ℂ) + (blochEy st q : ℂ) * Complex.I =
      2 * blochCoherence st q
    apply Complex.ext
    · rw [blochEx_eq_coherence_re]
      simp [Complex.add_re, Complex.mul_re]
    · rw [blochEy_eq_coherence_im]
      simp [Complex.add_im, Complex.mul_im]
  · rw [blochR, max_eq_right (le_min zero_le_one (Real.sqrt_nonneg _))]
    rfl
  · rw [hRR, blochTheta]
  · rw [hRR, blochPhi]

/-- C8 witness: the clamped-radius formula instantiated at the one-qubit
basis state at 0 for qubit 0. -/
theorem C8_bloch_parameters_witness :
    blochR ⟨1, fun i => if i = 0 then 1 else 0, true⟩ 0 =
      max 0 (min 1 (Real.sqrt
        (blochEx ⟨1, fun i => if i = 0 then 1 else 0, true⟩ 0 ^ 2 +
         blochEy ⟨1, fun i => if i = 0 then 1 else 0, true⟩ 0 ^ 2 +
         blochEz ⟨1, fun i => if i = 0 then 1 else 0, true⟩ 0 ^ 2))) :=
  (C8_bloch_parameters ⟨1, fun i => if i = 0 then 1 else 0, true⟩ 0 (by norm_num)
    (by simp [stateNormSq, Finset.sum_range_succ])).2.2.1

/-- When a gate pass leaves exact unit mass, the per-step renormalization
divides by 1 and returns the raw pass unchanged. -/
lemma applyGate_norm_one (st : SparseQuantumState) (g : Gate) (t : List ℕ)
    (hflag : st.normalizeEachStep = true)
    (hnrm : stateNormSq st.numQubits (applyGateRaw st g t) = 1) :
    st.applyGate g t =
      .ok ⟨st.numQubits, applyGateRaw st g t, st.normalizeEachStep⟩ := by
  simp only [SparseQuantumState.applyGate, hflag, if_true]
  rw [normalizeAmps, hnrm, Real.sqrt_one, if_neg one_ne_zero]
  show Except.ok (⟨st.numQubits, fun i =>
      (⟨(applyGateRaw st g t i).re / 1, (applyGateRaw st g t i).im / 1⟩ : ℂ),
      true⟩ : SparseQuantumState) = _
  have hfn : (fun i => (⟨(applyGateRaw st g t i).re / 1,
      (applyGateRaw st g t i).im / 1⟩ : ℂ)) = applyGateRaw st g t := by
    funext i
    rw [div_one, div_one]
  rw [hfn]

/-- The state Run starts from for the Bell preset. -/
noncomputable def bellState0 : SparseQuantumState :=
  ⟨2, fun i => if i = 0 then 1 else 0, true⟩

/-- Closed form of the amplitudes after the Hadamard on qubit 0 (and, the
CNOT acting as the identity here, also after the CNOT). -/
noncomputable def bellAmps1 : ℕ → ℂ := fun i =>
  if i = 0 then hFactor else if i = 1 then hFactor else 0

/-- The state after the Hadamard on qubit 0. -/
noncomputable def bellState1 : SparseQuantumState := ⟨2, bellAmps1, true⟩

/-- Squared magnitude of the Hadamard factor. -/
lemma abs_hFactor_sq : Complex.abs hFactor ^ 2 = 1 / 2 := by
  rw [hFactor, Complex.abs_ofReal, abs_of_nonneg (by positivity), div_pow,
    one_pow, Real.sq_sqrt (by norm_num)]

/-- The Hadamard pass on the Bell initial state, in closed form. -/
lemma bell_raw1_eq : applyGateRaw bellState0 Gate.Hadamard [0] = bellAmps1 := by
  funext j
  rw [applyGateRaw]
  simp only [bellState0, bellAmps1]
  norm_num only [Finset.sum_range_succ, Finset.sum_range_zero,
    List.length_cons, List.length_nil]
  simp [applyGateToBasisState, localBasisIndex, Gate.entry, Gate.Hadamard,
    Nat.ldiff, Nat.bitwise, List.getD, List.range_succ]
  by_cases h0 : j = 0
  · simp [h0]
  · by_cases h1 : j = 1
    · simp [h0, h1, Ne.symm h0]
    · simp [h0, h1, Ne.symm h0, Ne.symm h1]

/-- Local basis index of state 0 for targets 0 and 1. -/
lemma bell_lb01_0 : localBasisIndex 0 [0, 1] = 0 := by
  simp [localBasisIndex, List.range_succ, List.getD]

/-- Local basis index of state 1 for targets 0 and 1. -/
lemma bell_lb01_1 : localBasisIndex 1 [0, 1] = 1 := by
  simp [localBasisIndex, List.range_succ, List.getD]

/-- Local basis index of state 2 for targets 0 and 1. -/
lemma bell_lb01_2 : localBasisIndex 2 [0, 1] = 2 := by
  simp [localBasisIndex, List.range_succ, List.getD]

/-- Local basis index of state 3 for targets 0 and 1. -/
lemma bell_lb01_3 : localBasisIndex 3 [0, 1] = 3 := by
  simp [localBasisIndex, List.range_succ, List.getD]

/-- Overwriting bits 0 and 1 of state 0 with the bits of 0. -/
lemma bell_ap01_0_0 : applyGateToBasisState 0 [0, 1] 0 = 0 := by
  rw [applyGateToBasisState]
  simp only [List.length_cons, List.length_nil, List.range_succ, List.range_zero,
    List.nil_append, List.cons_append, List.foldl_cons, List.foldl_nil]
  norm_num [List.getD]
  simp [Nat.ldiff, Nat.bitwise]

/-- Overwriting bits 0 and 1 of state 0 with the bits of 1. -/
lemma bell_ap01_0_1 : applyGateToBasisState 0 [0, 1] 1 = 1 := by
  rw [applyGateToBasisState]
  simp only [List.length_cons, List.length_nil, List.range_succ, List.range_zero,
    List.nil_append, List.cons_append, List.foldl_cons, List.foldl_nil]
  norm_num [List.getD]
  simp [Nat.ldiff, Nat.bitwise]

/-- Overwriting bits 0 and 1 of state 0 with the bits of 2. -/
lemma bell_ap01_0_2 : applyGateToBasisState 0 [0, 1] 2 = 2 := by
  rw [applyGateToBasisState]
  simp only [List.length_cons, List.length_nil, List.range_succ, List.range_zero,
    List.nil_append, List.cons_append, List.foldl_cons, List.foldl_nil]
  norm_num [List.getD]
  simp [Nat.ldiff, Nat.bitwise]

/-- Overwriting bits 0 and 1 of state 0 with the bits of 3. -/
lemma bell_ap01_0_3 : applyGateToBasisState 0 [0, 1] 3 = 3 := by
  rw [applyGateToBasisState]
  simp only [List.length_cons, List.length_nil, List.range_succ, List.range_zero,
    List.nil_append, List.cons_append, List.foldl_cons, List.foldl_nil]
  norm_num [List.getD]
  simp [Nat.ldiff, Nat.bitwise]

/-- Overwriting bits 0 and 1 of state 1 with the bits of 0. -/
lemma bell_ap01_1_0 : applyGateToBasisState 1 [0, 1] 0 = 0 := by
  rw [applyGateToBasisState]
  simp only [List.length_cons, List.length_nil, List.range_succ, List.range_zero,
    List.nil_append, List.cons_append, List.foldl_cons, List.foldl_nil]
  norm_num [List.getD]
  simp [Nat.ldiff, Nat.bitwise]

/-- Overwriting bits 0 and 1 of state 1 with the bits of 1. -/
lemma bell_ap01_1_1 : applyGateToBasisState 1 [0, 1] 1 = 1 := by
  rw [applyGateToBasisState]
  simp only [List.length_cons, List.length_nil, List.range_succ, List.range_zero,
    List.nil_append, List.cons_append, List.foldl_cons, List.foldl_nil]
  norm_num [List.getD]
  simp [Nat.ldiff, Nat.bitwise]

/-- Overwriting bits 0 and 1 of state 1 with the bits of 2. -/
lemma bell_ap01_1_2 : applyGateToBasisState 1 [0, 1] 2 = 2 := by
  rw [applyGateToBasisState]
  simp only [List.length_cons, List.length_nil, List.range_succ, List.range_zero,
    List.nil_append, List.cons_append, List.foldl_cons, List.foldl_nil]
  norm_num [List.getD]
  simp [Nat.ldiff, Nat.bitwise]

/-- Overwriting bits 0 and 1 of state 1 with the bits of 3. -/
lemma bell_ap01_1_3 : applyGateToBasisState 1 [0, 1] 3 = 3 := by
  rw [applyGateToBasisState]
  simp only [List.length_cons, List.length_nil, List.range_succ, List.range_zero,
    List.nil_append, List.cons_append, List.foldl_cons, List.foldl_nil]
  norm_num [List.getD]
  simp [Nat.ldiff, Nat.bitwise]

/-- Overwriting bits 0 and 1 of state 2 with the bits of 0. -/
lemma bell_ap01_2_0 : applyGateToBasisState 2 [0, 1] 0 = 0 := by
  rw [applyGateToBasisState]
  simp only [List.length_cons, List.length_nil, List.range_succ, List.range_zero,
    List.nil_append, List.cons_append, List.foldl_cons, List.foldl_nil]
  norm_num [List.getD]
  simp [Nat.ldiff, Nat.bitwise]

/-- Overwriting bits 0 and 1 of state 2 with the bits of 1. -/
lemma bell_ap01_2_1 : applyGateToBasisState 2 [0, 1] 1 = 1 := by
  rw [applyGateToBasisState]
  simp only [List.length_cons, List.length_nil, List.range_succ, List.range_zero,
    List.nil_append, List.cons_append, List.foldl_cons, List.foldl_nil]
  norm_num [List.getD]
  simp [Nat.ldiff, Nat.bitwise]

/-- Overwriting bits 0 and 1 of state 2 with the bits of 2. -/
lemma bell_ap01_2_2 : applyGateToBasisState 2 [0, 1] 2 = 2 := by
  rw [applyGateToBasisState]
  simp only [List.length_cons, List.length_nil, List.range_succ, List.range_zero,
    List.nil_append, List.cons_append, List.foldl_cons, List.foldl_nil]
  norm_num [List.getD]
  simp [Nat.ldiff, Nat.bitwise]

/-- Overwriting bits 0 and 1 of state 2 with the bits of 3. -/
lemma bell_ap01_2_3 : applyGateToBasisState 2 [0, 1] 3 = 3 := by
  rw [applyGateToBasisState]
  simp only [List.length_cons, List.length_nil, List.range_succ, List.range_zero,
    List.nil_append, List.cons_append, List.foldl_cons, List.foldl_nil]
  norm_num [List.getD]
  simp [Nat.ldiff, Nat.bitwise]

/-- Overwriting bits 0 and 1 of state 3 with the bits of 0. -/
lemma bell_ap01_3_0 : applyGateToBasisState 3 [0, 1] 0 = 0 := by
  rw [applyGateToBasisState]
  simp only [List.length_cons, List.length_nil, List.range_succ, List.range_zero,
    List.nil_append, List.cons_append, List.foldl_cons, List.foldl_nil]
  norm_num [List.getD]
  simp [Nat.ldiff, Nat.bitwise]

/-- Overwriting bits 0 and 1 of state 3 with the bits of 1. -/
lemma bell_ap01_3_1 : applyGateToBasisState 3 [0, 1] 1 = 1 := by
  rw [applyGateToBasisState]
  simp only [List.length_cons, List.length_nil, List.range_succ, List.range_zero,
    List.nil_append, List.cons_append, List.foldl_cons, List.foldl_nil]
  norm_num [List.getD]
  simp [Nat.ldiff, Nat.bitwise]

/-- Overwriting bits 0 and 1 of state 3 with the bits of 2. -/
lemma bell_ap01_3_2 : applyGateToBasisState 3 [0, 1] 2 = 2 := by
  rw [applyGateToBasisState]
  simp only [List.length_cons, List.length_nil, List.range_succ, List.range_zero,
    List.nil_append, List.cons_append, List.foldl_cons, List.foldl_nil]
  norm_num [List.getD]
  simp [Nat.ldiff, Nat.bitwise]

/-- Overwriting bits 0 and 1 of state 3 with the bits of 3. -/
lemma bell_ap01_3_3 : applyGateToBasisState 3 [0, 1] 3 = 3 := by
  rw [applyGateToBasisState]
  simp only [List.length_cons, List.length_nil, List.range_succ, List.range_zero,
    List.nil_append, List.cons_append, List.foldl_cons, List.foldl_nil]
  norm_num [List.getD]
  simp [Nat.ldiff, Nat.bitwise]

/-- The CNOT pass on the post-Hadamard state, in closed form: the mass stays
on indices 0 and 1 because the CNOT matrix takes its control from the SECOND
listed qubit (the high bit of the local basis index), which is 0 here. -/
lemma bell_raw2_eq : applyGateRaw bellState1 Gate.CNOT [0, 1] = bellAmps1 := by
  funext j
  rw [applyGateRaw]
  simp only [bellState1, bellAmps1]
  norm_num only [Finset.sum_range_succ, Finset.sum_range_zero,
    List.length_cons, List.length_nil]
  simp only [bell_lb01_0, bell_lb01_1, bell_lb01_2, bell_lb01_3,
    bell_ap01_0_0, bell_ap01_0_1, bell_ap01_0_2, bell_ap01_0_3,
    bell_ap01_1_0, bell_ap01_1_1, bell_ap01_1_2, bell_ap01_1_3,
    bell_ap01_2_0, bell_ap01_2_1, bell_ap01_2_2, bell_ap01_2_3,
    bell_ap01_3_0, bell_ap01_3_1, bell_ap01_3_2, bell_ap01_3_3]
  simp [Gate.entry, Gate.CNOT, List.getD]
  by_cases h0 : j = 0
  · simp [h0]
  · by_cases h1 : j = 1
    · simp [h0, h1, Ne.symm h0]
    · simp [h0, h1, Ne.symm h0, Ne.symm h1]

/-- The closed-form amplitudes carry exact unit mass. -/
lemma bell_normSq_amps1 : stateNormSq 2 bellAmps1 = 1 := by
  rw [stateNormSq]
  norm_num [Finset.sum_range_succ, bellAmps1, abs_hFactor_sq]

/-- Applying the Hadamard to the Bell initial state. -/
lemma bell_step1 : bellState0.applyGate Gate.Hadamard [0] = .ok bellState1 := by
  have h := applyGate_norm_one bellState0 Gate.Hadamard [0] rfl
    (by rw [bell_raw1_eq]; exact bell_normSq_amps1)
  rw [h]
  show _ = Except.ok (⟨2, bellAmps1, true⟩ : SparseQuantumState)
  rw [bell_raw1_eq]
  rfl

/-- Applying the CNOT to the post-Hadamard state. -/
lemma bell_step2 : bellState1.applyGate Gate.CNOT [0, 1] = .ok bellState1 := by
  have h := applyGate_norm_one bellState1 Gate.CNOT [0, 1] rfl
    (by rw [bell_raw2_eq]; exact bell_normSq_amps1)
  rw [h]
  show _ = Except.ok (⟨2, bellAmps1, true⟩ : SparseQuantumState)
  rw [bell_raw2_eq]
  rfl

/-- Running the Bell preset end to end: the final amplitudes are bellAmps1,
an equal superposition of indices 0 and 1. -/
lemma bell_run : bellCircuit.run (fun _ => 0) = .ok bellState1 := by
  have hmk : SparseQuantumState.make 2 0 = .ok bellState0 := by
    rw [SparseQuantumState.make, if_neg (by norm_num)]
    rfl
  simp only [Circuit.run, bellCircuit]
  rw [hmk]
  simp only [runOps, bell_step1, bell_step2]

/-- C1 (evaluation at the failing input): the Bell circuit (n = 2, initial 0,
Hadamard on qubit 0 then CNOT on qubits 0 and 1) runs to probability vector
[0.5, 0.5, 0, 0], not the claimed [0.5, 0, 0, 0.5]: the CNOT matrix flips the
bit at the FIRST listed qubit when the bit at the SECOND listed qubit is 1,
so with the control superposed on the first listed position the gate acts as
the identity. -/
theorem C1_bell_run_probabilities :
    ∃ st : SparseQuantumState,
      bellCircuit.run (fun _ => 0) = .ok st ∧
      probVector st 0 = 1 / 2 ∧ probVector st 1 = 1 / 2 ∧
      probVector st 2 = 0 ∧ probVector st 3 = 0 := by
  refine ⟨bellState1, bell_run, ?_, ?_, ?_, ?_⟩ <;>
    · simp only [probVector, bellState1]
      rw [bell_normSq_amps1, if_pos (by norm_num)]
      norm_num [bellAmps1, abs_hFactor_sq]

/-- C10 counterexample: the JavaScript engine reduces the shift count of the
bit test mod 32, so measuring qubit index 32 on the unit-norm one-qubit state
(1/sqrt 2)(|0> + |1>) tests bit 0: p0 is one half, the draw one half selects
outcome 1 (not the claimed 0), and the entry at key 0 is deleted (the map is
not unchanged). -/
theorem C10_counterexample_shift_count_wraps :
    stateNormSq 1 bellAmps1 = 1 ∧
    ∃ post : SparseQuantumState,
      (⟨1, bellAmps1, true⟩ : SparseQuantumState).measureJs 32 (1 / 2) =
        .ok (1, post) ∧
      post.amplitudes 0 = 0 ∧
      bellAmps1 0 ≠ 0 := by
  have hnorm1 : stateNormSq 1 bellAmps1 = 1 := by
    rw [stateNormSq]
    norm_num [Finset.sum_range_succ, bellAmps1, abs_hFactor_sq]
  have h32 : (32 : ℕ) % 32 = 0 := by norm_num
  have hp0 : measureProb0 ⟨1, bellAmps1, true⟩ 0 = 1 / 2 := by
    rw [measureProb0]
    norm_num [Finset.sum_range_succ, bellAmps1, abs_hFactor_sq]
  have hout : measureOutcome ⟨1, bellAmps1, true⟩ 0 (1 / 2) = 1 := by
    rw [measureOutcome, hp0]
    norm_num
  have hproj0 : measureProjected ⟨1, bellAmps1, true⟩ 0 (1 / 2) 0 = 0 := by
    rw [measureProjected, hout]
    norm_num
  have hS : stateNormSq 1 (measureProjected ⟨1, bellAmps1, true⟩ 0 (1 / 2)) =
      1 / 2 := by
    rw [stateNormSq]
    norm_num [Finset.sum_range_succ, measureProjected, hout, bellAmps1,
      abs_hFactor_sq]
  have hsq : Real.sqrt (1 / 2) ≠ 0 := ne_of_gt (Real.sqrt_pos.mpr (by norm_num))
  refine ⟨hnorm1, ⟨1, fun i =>
      ⟨(measureProjected ⟨1, bellAmps1, true⟩ 0 (1 / 2) i).re / Real.sqrt (1 / 2),
       (measureProjected ⟨1, bellAmps1, true⟩ 0 (1 / 2) i).im / Real.sqrt (1 / 2)⟩,
      true⟩, ?_, ?_, ?_⟩
  · rw [SparseQuantumState.measureJs, h32, SparseQuantumState.measure]
    dsimp only
    rw [normalizeAmps, hS, if_neg hsq, hout]
  · dsimp only
    rw [hproj0]
    simp [Complex.ext_iff]
  · rw [bellAmps1]
    simp only [if_pos rfl]
    rw [hFactor]
    exact Complex.ofReal_ne_zero.mpr (ne_of_gt (by positivity))

/-- C10 (amended): measure performs no range validation on its qubit
argument, but the engine reduces the shift count of its bit tests mod 32, so
measure(q) behaves exactly as measure(q mod 32).  Hence for every qubit
index q with n <= q < 32 and every unit-norm state with keys below 2^n,
measure(q) raises no error, returns 0, and leaves the amplitude map
unchanged (bit q of every stored key is 0, so p0 = 1, any draw below 1
selects 0, nothing is deleted, and renormalization divides by 1); for
q >= 32 it instead measures bit (q mod 32). -/
theorem C10_measureJs_high_qubit_noop (st : SparseQuantumState) (q : ℕ)
    (u : ℝ) (hq : st.numQubits ≤ q) (hq32 : q < 32)
    (hsupp : ∀ i, 2 ^ st.numQubits ≤ i → st.amplitudes i = 0)
    (hnorm : stateNormSq st.numQubits st.amplitudes = 1)
    (hu0 : 0 ≤ u) (hu1 : u < 1) :
    st.measureJs q u = .ok (0, st) ∧
    (∀ (st2 : SparseQuantumState) (q2 : ℕ) (u2 : ℝ),
      st2.measureJs q2 u2 = st2.measureJs (q2 % 32) u2) := by
  constructor
  · rw [SparseQuantumState.measureJs, Nat.mod_eq_of_lt hq32]
    exact measure_untruncated_high_qubit_noop st q u hq hsupp hnorm hu0 hu1
  · intro st2 q2 u2
    have hmm2 : q2 % 32 % 32 = q2 % 32 := by omega
    rw [SparseQuantumState.measureJs, SparseQuantumState.measureJs, hmm2]

/-- C10 witness: the one-qubit basis state at 0 measured on qubit index 5
(at least n = 1 and below 32) with draw one half returns outcome 0 and the
unchanged state. -/
theorem C10_measureJs_high_qubit_noop_witness :
    (⟨1, fun i => if i = 0 then 1 else 0, true⟩ :
        SparseQuantumState).measureJs 5 (1 / 2) =
      .ok (0, ⟨1, fun i => if i = 0 then 1 else 0, true⟩) :=
  (C10_measureJs_high_qubit_noop ⟨1, fun i => if i = 0 then 1 else 0, true⟩ 5
    (1 / 2) (by norm_num) (by norm_num)
    (by intro i hi
        dsimp only at hi ⊢
        norm_num at hi
        rw [if_neg (by omega)])
    (by simp [stateNormSq, Finset.sum_range_succ])
    (by norm_num) (by norm_num)).1

end QSim
